import Mathlib

/-!
A verification development for the Nancy templating system
(`src/nancy/__init__.py`), a macro-expansion engine over an overlay of
input directory trees.

The Python source operates on `bytes`; all behaviour relevant here is
ASCII, so text is embedded as `List Char` (`Bytes`).  Filesystem paths
are embedded as lists of name segments (`RelPath`); a resolved "real"
path is a root index together with a relative path (`FPath.inTree`) or a
path found on the system search path (`FPath.system`).  Machine details
not touched by any verified property are abstracted: modification times
(floats in Python) are embedded as integers with the same order
semantics, symbolic links are not present in the modelled filesystem
(so `find_object`'s symlink re-resolution branch never fires), and
subprocess execution is a function supplied by the environment.
-/

-- Equality of fallible results is decidable (used to evaluate the
-- engine on concrete inputs).
deriving instance DecidableEq for Except

namespace Nancy

/-- Text, as in the Python source's `bytes` values (ASCII). -/
abbrev Bytes := List Char

/-- The opening brace character (written numerically throughout). -/
def lbrace : Char := Char.ofNat 123

/-- The closing brace character. -/
def rbrace : Char := Char.ofNat 125

/-- `re.sub(b"\n$", b"", s)`: drop one final newline, if present
(`strip_final_newline`). -/
def stripFinalNewline (s : Bytes) : Bytes :=
  if s.getLast? = some '\n' then s.dropLast else s

/-- `b",".join(args)` (used by `command_to_str` and for macro inputs). -/
def joinArgs : List Bytes → Bytes
  | [] => []
  | [a] => a
  | a :: b :: rest => a ++ ',' :: joinArgs (b :: rest)

/-- `re.sub(rb"\\,", b",", arg)`: unescape escaped commas
(`Expand.expand_arg`, first step). -/
def unescCommas : Bytes → Bytes
  | [] => []
  | '\\' :: ',' :: rest => ',' :: unescCommas rest
  | c :: rest => c :: unescCommas rest

/-- An ASCII letter: what the byte-mode character class `[^\W\d_]` of
`MACRO_REGEX` matches (a word character that is neither a digit nor an
underscore). -/
def letterChar (c : Char) : Bool :=
  ('a' ≤ c && c ≤ 'z') || ('A' ≤ c && c ≤ 'Z')

/-- A byte-mode `\w` word character: ASCII letter, digit or underscore. -/
def wordChar (c : Char) : Bool :=
  letterChar c || ('0' ≤ c && c ≤ '9') || c = '_'

/-- Prepend a character to the pre-match text of a marker search result. -/
def consPre (c : Char) :
    Option (Bytes × Bool × Bytes × Bytes) → Option (Bytes × Bool × Bytes × Bytes)
  | none => none
  | some (p, e, n, r) => some (c :: p, e, n, r)

/-- `MACRO_REGEX.search`: find the leftmost occurrence of
`(\\?)\$([^\W\d_]\w*)`.  Returns `(pre, escaped, name, rest)` where
`pre` is the text before the match, `escaped` tells whether the optional
backslash group matched, `name` is the (maximal) identifier and `rest`
is the text after the match. -/
def findMarker : Bytes → Option (Bytes × Bool × Bytes × Bytes)
  | [] => none
  | c :: rest =>
    if c = '\\' then
      match rest with
      | c1 :: c2 :: r2 =>
        if c1 = '$' ∧ letterChar c2 then
          some ([], true, c2 :: r2.takeWhile wordChar, r2.dropWhile wordChar)
        else consPre c (findMarker rest)
      | _ => consPre c (findMarker rest)
    else if c = '$' then
      match rest with
      | c2 :: r2 =>
        if letterChar c2 then
          some ([], false, c2 :: r2.takeWhile wordChar, r2.dropWhile wordChar)
        else consPre c (findMarker rest)
      | [] => none
    else consPre c (findMarker rest)

/-- The scanning loop of `parse_arguments`.  `top` is the currently
expected closing bracket (`closing[-1]` in the source), `stk` the rest of
the stack of expected closing brackets, `cur` the characters of the
argument currently being scanned (the source keeps slice indices instead),
`acc` the arguments finished so far and `prev` the previously scanned
character (`text[next_index - 1]`).  Returns the argument list and the
text after the closing delimiter, or the source's
`ValueError(f"missing {chr(closing[-1])}")`. -/
def parseAux (top : Char) (stk : List Char) (cur : Bytes) (acc : List Bytes)
    (prev : Char) : Bytes → Except String (List Bytes × Bytes)
  | [] => .error ("missing " ++ String.singleton top)
  | c :: rest =>
    if c = top then
      match stk with
      | [] => .ok (acc ++ [cur], rest)
      | t :: s => parseAux t s (cur ++ [c]) acc c rest
    else if c = '(' then parseAux ')' (top :: stk) (cur ++ [c]) acc c rest
    else if c = lbrace then parseAux rbrace (top :: stk) (cur ++ [c]) acc c rest
    else if stk = [] ∧ c = ',' ∧ prev ≠ '\\' then
      parseAux top [] [] (acc ++ [cur]) c rest
    else parseAux top stk (cur ++ [c]) acc c rest

/-- `parse_arguments(text, arg_start, initial_closing)`, phrased on the
text after the opening bracket: `rest = text[arg_start + 1 :]`,
`opening = text[arg_start]` and `closer = chr(initial_closing)`. -/
def parseArguments (rest : Bytes) (opening closer : Char) :
    Except String (List Bytes × Bytes) :=
  parseAux closer [] [] [] opening rest

/-- The `args_string` of `command_to_str`. -/
def renderArgsPart : Option (List Bytes) → Bytes
  | none => []
  | some as => '(' :: joinArgs as ++ [')']

/-- The `input_string` of `command_to_str`. -/
def renderInpPart : Option Bytes → Bytes
  | none => []
  | some i => lbrace :: i ++ [rbrace]

/-- `command_to_str`: reconstitute a macro call from its parsed form. -/
def cmdToStr (name : Bytes) (args : Option (List Bytes)) (inp : Option Bytes) :
    Bytes :=
  '$' :: name ++ renderArgsPart args ++ renderInpPart inp

/-- The input-body half of the argument parsing in `Expand.expand`
(lines 536-538): if the text starts with `{`, parse a braced region and
join its comma-separated parts into the macro input. -/
def parseInputPart (argsO : Option (List Bytes)) (r : Bytes) :
    Except String (Option (List Bytes) × Option Bytes × Bytes) :=
  match r with
  | c :: rest =>
    if c = lbrace then
      match parseArguments rest lbrace rbrace with
      | .error e => .error e
      | .ok (ia, rem) => .ok (argsO, some (joinArgs ia), rem)
    else .ok (argsO, none, r)
  | [] => .ok (argsO, none, [])

/-- The argument/input parsing in `Expand.expand` (lines 532-538): an
optional parenthesised argument list followed by an optional braced
input, returning what is left of the text. -/
def parseCall (post : Bytes) :
    Except String (Option (List Bytes) × Option Bytes × Bytes) :=
  match post with
  | c :: rest =>
    if c = '(' then
      match parseArguments rest '(' ')' with
      | .error e => .error e
      | .ok (args, rem) => parseInputPart (some args) rem
    else parseInputPart none post
  | [] => .ok (none, none, [])

/-! ## The overlay filesystem (`Trees`) -/

/-- A path relative to the input overlay (a `pathlib.Path`, as its list
of name segments; `[]` is `Path(".")`). -/
abbrev RelPath := List String

/-- An object in one input root: a regular file with its contents, or a
directory with its child names.  Symbolic links are not modelled (see
the header comment), so `find_object`'s symlink branch never fires. -/
inductive FsObj where
  | file (content : Bytes)
  | dir (children : List String)
  deriving DecidableEq, Repr

/-- The contents of one input root, as a finite path-to-object map. -/
abbrev RootFs := List (RelPath × FsObj)

/-- Look `p` up in one root (`(root / obj).exists()` is `isSome`). -/
def rootGet (r : RootFs) (p : RelPath) : Option FsObj :=
  match r.find? (fun e => e.1 = p) with
  | some e => some e.2
  | none => none

/-- A concrete filesystem path: inside input root number `root`, or on
the system search path (`shutil.which` result). -/
inductive FPath where
  | inTree (root : Nat) (p : RelPath)
  | system (s : String)
  deriving DecidableEq, Repr

/-- The scan of `Trees.find_object`, carrying the index of the root
currently tried. -/
def findObjAux (p : RelPath) (i : Nat) : List RootFs → Option (Nat × RelPath)
  | [] => none
  | r :: rest =>
    if (rootGet r p).isSome then some (i, p) else findObjAux p (i + 1) rest

/-- `Trees.find_object`: the leftmost input root in which `p` exists
supplies it (files and directories alike short-circuit in the source's
loop; the merged view of directories is `scandir` below). -/
def findObject (fs : List RootFs) (p : RelPath) : Option (Nat × RelPath) :=
  findObjAux p 0 fs

/-- Child names of directory `p` in one root (empty unless `p` is a
directory of that root), as used by `Trees.scandir`. -/
def childrenOf (r : RootFs) (p : RelPath) : List String :=
  match rootGet r p with
  | some (.dir kids) => kids
  | _ => []

/-- `Trees.scandir`: the merged child names of overlaid directory `p`,
collected over every root that has `p` as a directory (the source builds
a `set`; de-duplication models that). -/
def scandir (fs : List RootFs) (p : RelPath) : List String :=
  ((fs.map fun r => childrenOf r p).flatten).dedup

/-- Is this concrete path a regular file (`Path.is_file`)? -/
def isFileAt (fs : List RootFs) (q : Nat × RelPath) : Bool :=
  match fs.get? q.1 with
  | some r =>
    match rootGet r q.2 with
    | some (.file _) => true
    | _ => false
  | none => false

/-- Read a file's bytes (`Path.read_bytes`).  Only in-tree paths are
ever read by the engine (include/paste targets are found by the in-tree
search); a system path yields `none`, surfacing as a read error. -/
def readFs (fs : List RootFs) : FPath → Option Bytes
  | .inTree i p =>
    match fs.get? i with
    | some r =>
      match rootGet r p with
      | some (.file c) => some c
      | _ => none
    | none => none
  | .system _ => none

/-- The run-constant environment: the input overlay (`Trees.inputs`,
with the root directory names kept for message rendering), the system
`PATH` lookup (`shutil.which`) and the external-process runner
(`filter_bytes` plus `process.communicate`), returning an exit status
and captured standard output. -/
structure Env where
  fs : List RootFs
  rootNames : List String
  which : String → Option String
  runProg : FPath → List Bytes → Option Bytes → Int × Bytes

/-- `str(path)` for an overlay-relative `Path` (`Path(".")` prints `.`). -/
def renderPath (p : RelPath) : String :=
  match p with
  | [] => "."
  | _ => String.intercalate "/" p

/-- `str(path)` for a concrete filesystem path. -/
def renderFP (env : Env) : FPath → String
  | .inTree i p => env.rootNames.getD i "" ++ "/" ++ renderPath p
  | .system s => s

/-- Split a character list at every slash. -/
def splitSlashAux (cur : List Char) : List Char → List (List Char)
  | [] => [cur.reverse]
  | c :: rest =>
    if c = '/' then cur.reverse :: splitSlashAux [] rest
    else splitSlashAux (c :: cur) rest

/-- `Path(os.fsdecode(arg))`: split a textual path into segments
(`pathlib` drops empty and `.` segments at construction). -/
def parsePathStr (s : String) : RelPath :=
  ((splitSlashAux [] s.data).map String.mk).filter
    (fun seg => seg ≠ "" ∧ seg ≠ ".")

/-- The accumulator pass of `os.path.normpath` over path segments:
`..` cancels a preceding segment where possible. -/
def normAux (acc : List String) : List String → List String
  | [] => acc
  | s :: rest =>
    if s = ".." then
      match acc.getLast? with
      | some t => if t = ".." then normAux (acc ++ [s]) rest
                  else normAux acc.dropLast rest
      | none => normAux (acc ++ [s]) rest
    else normAux (acc ++ [s]) rest

/-- `os.path.normpath` (on an already-segmented relative path). -/
def normPath (p : RelPath) : RelPath := normAux [] p

/-- `path.parent` for an overlay-relative path. -/
def parentOf (p : RelPath) : RelPath := p.dropLast

/-- `(start_path / "_").parents` in `Expand.find_on_path`: the start
directory itself, then each of its ancestors, ending at `Path(".")` —
that is, every prefix of the start directory, longest first. -/
def selfAndAncestors (p : RelPath) : List RelPath :=
  p.inits.reverse

/-- The per-file expansion context (`Expand`'s fields): the
overlay-relative path of the file being expanded, the computed output
path (`None` while the filename itself is being expanded), and whether
the macro set is `RunMacros` (real build) or `Macros` (the dry pass of
the update check). -/
structure Ctx where
  path : RelPath
  outputPath : Option RelPath
  isRunCls : Bool

/-- The include-stack (`Expand._stack`). -/
abbrev St := List FPath

/-- The body of `Expand.find_on_path`'s loop for one ancestor: resolve
through the overlay, then accept only an existing regular file that is
not on the include-stack. -/
def candAt (env : Env) (st : St) (q : RelPath) : Option FPath :=
  match findObject env.fs q with
  | some op =>
    if isFileAt env.fs op ∧ FPath.inTree op.1 op.2 ∉ st then
      some (.inTree op.1 op.2)
    else none
  | none => none

/-- `Expand.find_on_path`: search upward from `start` for `file`,
returning the first hit not on the include-stack. -/
def findOnPath (env : Env) (st : St) (start : RelPath) (file : RelPath) :
    Option FPath :=
  (selfAndAncestors start).findSome? fun parent =>
    candAt env st (parent ++ normPath file)

/-- `Expand.file_arg`: find a file named by a macro argument, searching
the input tree upward from the current file's directory; with `exe`
set, fall back to the system `PATH`. -/
def fileArg (env : Env) (ctx : Ctx) (st : St) (arg : Bytes) (exe : Bool) :
    Except String FPath :=
  let filename := parsePathStr (String.mk arg)
  match findOnPath env st (parentOf ctx.path) filename with
  | some p => .ok p
  | none =>
    if exe then
      match env.which (renderPath filename) with
      | some s => .ok (.system s)
      | none => .error ("cannot find program '" ++ renderPath filename ++ "'")
    else
      .error ("cannot find '" ++ renderPath filename ++ "' while expanding '"
        ++ renderPath (parentOf ctx.path) ++ "'")

/-! ## The macro expansion engine (`Expand`, `Macros`, `RunMacros`)

The Python engine's recursion is unbounded; the embedding is indexed by
a fuel parameter (each function consumes one unit per call), so running
out of fuel is an extra error that a large enough fuel never produces.
`Expand.expand` works in two phases: it first collects, in text order,
the substitutions for every macro match — executing the macros, and
starting external processes for `$run` — and then splices the pieces,
at which point a non-zero exit status of a started process raises.
`collect` below is the first phase (returning `Piece`s) and `splice`
the second; the stack component of a result is the value of the mutable
`Expand._stack` when the call returns or raises. -/

/-- The collection error used when the fuel is exhausted (never reached
with adequate fuel; not an error of the source program). -/
def fuelErr : String := "fuel exhausted"

/-- One entry of `Expand.expand`'s `expansions` list (with its
surrounding literal text): literal bytes, or a started external command
whose exit status is examined when splicing. -/
inductive Piece where
  | txt (b : Bytes)
  | cmd (rc : Int) (stdout : Bytes) (cmdStr : String)
  deriving DecidableEq, Repr

/-- A stateful engine result: the include-stack after the call, and the
value or the raised error. -/
abbrev M (α : Type) := St × Except String α

/-- The splicing phase of `Expand.expand` (its second loop): concatenate
literal pieces and command outputs, raising on a non-zero exit status. -/
def splice : List Piece → Except String Bytes
  | [] => .ok []
  | .txt b :: rest =>
    match splice rest with
    | .ok tail => .ok (b ++ tail)
    | .error e => .error e
  | .cmd rc out cmdStr :: rest =>
    if rc ≠ 0 then .error ("Error code " ++ toString rc ++ " running: " ++ cmdStr)
    else
      match splice rest with
      | .ok tail => .ok (out ++ tail)
      | .error e => .error e

/-- Keep a result's stack and error, mapping only a successful value
(the wrapping of an optional sub-expansion in `do_macro` and
`RunMacros.run`). -/
def mapOkVal {α β : Type} (g : α → β) : M α → M β
  | (st1, Except.ok a) => (st1, Except.ok (g a))
  | (st1, Except.error e) => (st1, Except.error e)

mutual

/-- The scanning phase of `Expand.expand`: find each macro marker, parse
its arguments and input, and either reconstitute it (escaped) or execute
it, accumulating output pieces and the computed input files. -/
def collect (fuel : Nat) (env : Env) (ctx : Ctx) (st : St) (text : Bytes) :
    M (List Piece × List FPath) :=
  match fuel with
  | 0 => (st, .error fuelErr)
  | f + 1 =>
    match findMarker text with
    | none => (st, .ok ([.txt text], []))
    | some (pre, esc, name, post) =>
      match parseCall post with
      | .error e => (st, .error e)
      | .ok (argsO, inpO, post2) =>
        if esc then
          -- Just remove the leading backslash (lines 539-541).
          match collect f env ctx st post2 with
          | (st1, .ok (ps, ins)) =>
            (st1, .ok (.txt pre :: .txt (cmdToStr name argsO inpO) :: ps, ins))
          | (st1, .error e) => (st1, .error e)
        else
          match doMac f env ctx st name argsO inpO with
          | (st1, .ok (out, ins1)) =>
            match collect f env ctx st1 post2 with
            | (st2, .ok (ps, ins2)) =>
              (st2, .ok (.txt pre :: out :: ps, ins1 ++ ins2))
            | (st2, .error e) => (st2, .error e)
          | (st1, .error e) => (st1, .error e)

/-- `Expand.expand`: scan and substitute every macro invocation in
`text`, returning the expanded bytes and the input files reached. -/
def expand (fuel : Nat) (env : Env) (ctx : Ctx) (st : St) (text : Bytes) :
    M (Bytes × List FPath) :=
  match fuel with
  | 0 => (st, .error fuelErr)
  | f + 1 =>
    match collect f env ctx st text with
    | (st1, .ok (ps, ins)) =>
      match splice ps with
      | .ok b => (st1, .ok (b, ins))
      | .error e => (st1, .error e)
    | (st1, .error e) => (st1, .error e)

/-- `Expand.expand_arg`: unescape escaped commas, then expand. -/
def expandArg (fuel : Nat) (env : Env) (ctx : Ctx) (st : St) (a : Bytes) :
    M (Bytes × List FPath) :=
  match fuel with
  | 0 => (st, .error fuelErr)
  | f + 1 => expand f env ctx st (unescCommas a)

/-- The argument list comprehension of `Expand.do_macro`: expand each
raw argument left to right, accumulating the computed inputs. -/
def expandArgs (fuel : Nat) (env : Env) (ctx : Ctx) (st : St) :
    List Bytes → M (List Bytes × List FPath)
  | as =>
    match fuel with
    | 0 => (st, .error fuelErr)
    | f + 1 =>
      match as with
      | [] => (st, .ok ([], []))
      | a :: rest =>
        match expandArg f env ctx st a with
        | (st1, .ok (a2, ins1)) =>
          match expandArgs f env ctx st1 rest with
          | (st2, .ok (rest2, ins2)) => (st2, .ok (a2 :: rest2, ins1 ++ ins2))
          | (st2, .error e) => (st2, .error e)
        | (st1, .error e) => (st1, .error e)

/-- `Expand.do_macro`: expand the raw arguments, then the raw input,
then dispatch on the macro name. -/
def doMac (fuel : Nat) (env : Env) (ctx : Ctx) (st : St) (name : Bytes)
    (argsO : Option (List Bytes)) (inpO : Option Bytes) :
    M (Piece × List FPath) :=
  match fuel with
  | 0 => (st, .error fuelErr)
  | f + 1 =>
    match
      ((match argsO with
        | none => (st, .ok (none, []))
        | some as =>
          mapOkVal (fun r => (some r.1, r.2)) (expandArgs f env ctx st as)) :
        M (Option (List Bytes) × List FPath)) with
    | (st1, .error e) => (st1, .error e)
    | (st1, .ok (args2, ins1)) =>
      match
        ((match inpO with
          | none => (st1, .ok (none, []))
          | some i =>
            mapOkVal (fun r => (some r.1, r.2)) (expandArg f env ctx st1 i)) :
          M (Option Bytes × List FPath)) with
      | (st2, .error e) => (st2, .error e)
      | (st2, .ok (inp2, ins2)) =>
        match macDispatch f env ctx st2 name args2 inp2 with
        | (st3, .ok (out, ins3)) => (st3, .ok (out, ins1 ++ ins2 ++ ins3))
        | (st3, .error e) => (st3, .error e)

/-- The macro set: `getattr(self._macros, name_str)` followed by the
macro method's body.  `ctx.isRunCls` selects `RunMacros.run` (real
build) over `Macros.run` (the dry update pass, which resolves the
executable but does not run it, and ignores the input). -/
def macDispatch (fuel : Nat) (env : Env) (ctx : Ctx) (st : St) (name : Bytes)
    (argsO : Option (List Bytes)) (inpO : Option Bytes) :
    M (Piece × List FPath) :=
  match fuel with
  | 0 => (st, .error fuelErr)
  | f + 1 =>
    let n := String.mk name
    if n = "path" then
      match argsO with
      | some _ => (st, .error "$path does not take arguments")
      | none =>
        match inpO with
        | some _ => (st, .error "$path does not take an input")
        | none => (st, .ok (.txt (renderPath ctx.path).data, []))
    else if n = "outputpath" then
      match argsO with
      | some _ => (st, .error "$outputpath does not take arguments")
      | none =>
        match inpO with
        | some _ => (st, .error "$outputpath does not take an input")
        | none =>
          match ctx.outputPath with
          | none =>
            (st, .error "$outputpath is not available while expanding the filename")
          | some op => (st, .ok (.txt (renderPath op).data, []))
    else if n = "expand" then
      match argsO with
      | some _ => (st, .error "$expand does not take arguments")
      | none =>
        match inpO with
        | none => (st, .error "$expand takes an input")
        | some i =>
          match expand f env ctx st i with
          | (st1, .ok (out, ins)) => (st1, .ok (.txt (stripFinalNewline out), ins))
          | (st1, .error e) => (st1, .error e)
    else if n = "paste" then
      match argsO with
      | some [a] =>
        match inpO with
        | some _ => (st, .error "$paste does not take an input")
        | none =>
          match fileArg env ctx st a false with
          | .error e => (st, .error e)
          | .ok p =>
            match readFs env.fs p with
            | none => (st, .error ("cannot read '" ++ renderFP env p ++ "'"))
            | some c => (st, .ok (.txt c, [p]))
      | _ => (st, .error "$paste needs exactly one argument")
    else if n = "include" then
      match argsO with
      | some [a] =>
        match inpO with
        | some _ => (st, .error "$include does not take an input")
        | none =>
          match fileArg env ctx st a false with
          | .error e => (st, .error e)
          | .ok p =>
            match includeFile f env ctx st p with
            | (st1, .ok (out, ins)) =>
              (st1, .ok (.txt (stripFinalNewline out), ins))
            | (st1, .error e) => (st1, .error e)
      | _ => (st, .error "$include needs exactly one argument")
    else if n = "run" then
      match argsO with
      | none => (st, .error "$run needs at least one argument")
      | some [] =>
        -- `parse_arguments` always yields at least one argument, so an
        -- empty list cannot arise from a parsed call.
        (st, .error "empty argument list")
      | some (a :: rest) =>
        match fileArg env ctx st a true with
        | .error e => (st, .error e)
        | .ok exe =>
          if ctx.isRunCls then
            match
              ((match inpO with
                | none => (st, .ok (none, []))
                | some i =>
                  mapOkVal (fun r => (some r.1, r.2)) (expand f env ctx st i)) :
                M (Option Bytes × List FPath)) with
            | (st1, .error e) => (st1, .error e)
            | (st1, .ok (inp2, ins)) =>
              let res := env.runProg exe rest inp2
              let cmdStr := renderFP env exe
                ++ (if rest = [] then ""
                    else " b'" ++ String.mk (joinArgs rest) ++ "'")
              (st1, .ok (.cmd res.1 res.2 cmdStr, ins ++ [exe]))
          else
            -- `Macros.run` (dry pass): track the executable, run nothing.
            (st, .ok (.txt [], [exe]))
    else (st, .error ("no such macro '$" ++ n ++ "'"))

/-- `Expand.include`: push the file on the include-stack, expand its
contents, and pop.  As in the source, the pop only happens on the
successful path; an error propagates with the file still pushed. -/
def includeFile (fuel : Nat) (env : Env) (ctx : Ctx) (st : St) (fp : FPath) :
    M (Bytes × List FPath) :=
  match fuel with
  | 0 => (st, .error fuelErr)
  | f + 1 =>
    match readFs env.fs fp with
    | none => (st ++ [fp], .error ("cannot read '" ++ renderFP env fp ++ "'"))
    | some content =>
      match expand f env ctx (st ++ [fp]) content with
      | (st1, .ok (out, ins)) => (st1.dropLast, .ok (out, ins ++ [fp]))
      | (st1, .error e) => (st1, .error e)

end

/-! ## Filename conventions and the output planner (`Trees.process_file`) -/

/-- Does `\.copy(?=\.|$)` match at the head of `s`? -/
def copyAt : List Char → Bool
  | '.' :: 'c' :: 'o' :: 'p' :: 'y' :: t => t = [] || t.head? = some '.'
  | _ => false

/-- `re.search(COPY_REGEX, name)`: `.copy` followed by a dot or the end
of the name, anywhere in `name`. -/
def copyMatchL : List Char → Bool
  | [] => false
  | c :: rest => copyAt (c :: rest) || copyMatchL rest

/-- `COPY_REGEX` on a file name. -/
def copyMatch (name : String) : Bool := copyMatchL name.data

/-- The lookahead `(?=\.[^.]+$|$)` shared by `TEMPLATE_REGEX` and
`INPUT_REGEX`: the end of the name, or a final extension (a dot followed
by one or more non-dot characters ending the name). -/
def finalExt (t : List Char) : Bool :=
  match t with
  | [] => true
  | '.' :: u => u ≠ [] && u.all (fun c => c ≠ '.')
  | _ => false

/-- Does `\.nancy(?=\.[^.]+$|$)` match at the head of `s`? -/
def nancyAt : List Char → Bool
  | '.' :: 'n' :: 'a' :: 'n' :: 'c' :: 'y' :: t => finalExt t
  | _ => false

/-- `re.search(TEMPLATE_REGEX, name)`. -/
def templateMatchL : List Char → Bool
  | [] => false
  | c :: rest => nancyAt (c :: rest) || templateMatchL rest

/-- `TEMPLATE_REGEX` on a file name. -/
def templateMatch (name : String) : Bool := templateMatchL name.data

/-- Does `\.in(?=\.[^.]+$|$)` match at the head of `s`? -/
def inAt : List Char → Bool
  | '.' :: 'i' :: 'n' :: t => finalExt t
  | _ => false

/-- `re.search(INPUT_REGEX, name)`. -/
def inMatchL : List Char → Bool
  | [] => false
  | c :: rest => inAt (c :: rest) || inMatchL rest

/-- `INPUT_REGEX` on a file name. -/
def inMatch (name : String) : Bool := inMatchL name.data

/-- `re.sub(TEMPLATE_REGEX, "", name)`: delete every match, scanning
left to right and resuming after each deleted match. -/
def templateSubL : List Char → List Char
  | [] => []
  | '.' :: 'n' :: 'a' :: 'n' :: 'c' :: 'y' :: t =>
    if finalExt t then templateSubL t
    -- No later match can begin inside the skipped `nancy` characters
    -- (a match starts with a dot), so scanning resumes at `t`.
    else '.' :: 'n' :: 'a' :: 'n' :: 'c' :: 'y' :: templateSubL t
  | c :: rest => c :: templateSubL rest

/-- `name.replace(".copy", "", 1)`: delete the first occurrence of the
plain substring `.copy` (no lookahead, unlike `COPY_REGEX`). -/
def replaceCopyOnce : List Char → List Char
  | [] => []
  | c :: rest =>
    if (c :: rest).take 5 = ['.', 'c', 'o', 'p', 'y'] then rest.drop 4
    else c :: replaceCopyOnce rest

/-- `Path.name`: the final segment of a relative path (`""` for
`Path(".")`). -/
def lastName (p : RelPath) : String := p.getLastD ""

/-- `Expand.set_output_path`: strip the copy or template marker from the
file name, then macro-expand the resulting relative path (with
`$outputpath` unavailable, and a fresh, empty include-stack). -/
def setOutputPath (fuel : Nat) (env : Env) (isRunCls : Bool) (build : RelPath)
    (path : RelPath) : Except String RelPath :=
  let op := path.drop build.length
  match op.getLast? with
  | none => .ok op
  | some nm =>
    let nm2 := if copyMatch nm then String.mk (replaceCopyOnce nm.data)
               else String.mk (templateSubL nm.data)
    let op2 := op.dropLast ++ [nm2]
    match expand fuel env ⟨path, none, isRunCls⟩ [] (renderPath op2).data with
    | (_, .ok (out, _)) => .ok (parsePathStr (String.mk out))
    | (_, .error e) => .error e

/-- What `Trees.process_file` does with a file it reaches: skip it
(input-only), copy it verbatim, or expand it as a template. -/
inductive FileAct where
  | skip
  | copy
  | template
  deriving DecidableEq, Repr

/-- The classification performed by `Trees.process_file` on the input
name: the input-only check (line 244) applies only without the copy
marker, and the copy marker (line 265) wins over the template marker. -/
def fileAction (name : String) : FileAct :=
  if ¬ copyMatch name ∧ inMatch name then .skip
  else if copyMatch name then .copy
  else if templateMatch name then .template
  else .copy

/-- The emission step of `Trees.process_file` (lines 264-278) for a file
that is not skipped, with a directory output: the computed output path
and the bytes written there (copy the raw file, or expand it through
`Expand.include` with the `RunMacros` set). -/
def processEmit (fuel : Nat) (env : Env) (rootIdx : Nat) (path : RelPath) :
    Except String (RelPath × Bytes) :=
  match setOutputPath fuel env true [] path with
  | .error e => .error e
  | .ok outP =>
    let nm := lastName path
    if copyMatch nm then
      match readFs env.fs (.inTree rootIdx path) with
      | some c => .ok (outP, c)
      | none => .error ("cannot read '" ++ renderFP env (.inTree rootIdx path) ++ "'")
    else if templateMatch nm then
      match includeFile fuel env ⟨path, some outP, true⟩ [] (.inTree rootIdx path) with
      | (_, .ok (out, _)) => .ok (outP, out)
      | (_, .error e) => .error e
    else
      match readFs env.fs (.inTree rootIdx path) with
      | some c => .ok (outP, c)
      | none => .error ("cannot read '" ++ renderFP env (.inTree rootIdx path) ++ "'")

/-- Modification times for the update (`--update`) check:
`mtime` is `Path.stat().st_mtime` of an input file, and `outExists`
gives the output file's modification time when it exists
(`st_mtime` is a float in Python; only its ordering matters here). -/
structure Upd where
  mtime : FPath → Int
  outExists : RelPath → Option Int

/-- `Trees._check_output_newer`: the output exists and is at least as
new as every input. -/
def checkOutputNewer (u : Upd) (inputs : List FPath) (out : RelPath) : Bool :=
  match u.outExists out with
  | none => false
  | some m => inputs.all fun i => u.mtime i ≤ m

/-- The dependency list computed by `Trees.process_file` under
`only_newer` (lines 249-258): the file itself for copied and plain
files; for a template, every input file collected by a dry expansion
pass (`Expand.include` with the `Macros` set). -/
def updDeps (fuel : Nat) (env : Env) (rootIdx : Nat) (path : RelPath) :
    Except String (List FPath) :=
  let nm := lastName path
  if copyMatch nm then .ok [.inTree rootIdx path]
  else if templateMatch nm then
    match setOutputPath fuel env false [] path with
    | .error e => .error e
    | .ok outP =>
      match includeFile fuel env ⟨path, some outP, false⟩ [] (.inTree rootIdx path) with
      | (_, .ok (_, ins)) => .ok ins
      | (_, .error e) => .error e
  else .ok [.inTree rootIdx path]

/-- The write decision of `Trees.process_file` in update mode. -/
inductive UpdAct where
  | notEmitted
  | upToDate
  | write
  deriving DecidableEq, Repr

/-- `Trees.process_file` with `only_newer` set, up to the write: compute
the output path; skip input-only files altogether; otherwise skip the
write exactly when `_check_output_newer` holds of the dependency list. -/
def updateDecision (fuel : Nat) (env : Env) (u : Upd) (rootIdx : Nat)
    (path : RelPath) : Except String UpdAct :=
  match setOutputPath fuel env true [] path with
  | .error e => .error e
  | .ok outP =>
    let nm := lastName path
    if ¬ copyMatch nm ∧ inMatch nm then .ok .notEmitted
    else
      match updDeps fuel env rootIdx path with
      | .error e => .error e
      | .ok deps =>
        .ok (if checkOutputNewer u deps outP then .upToDate else .write)

/-! ## Lemmas about argument parsing -/

theorem joinArgs_concat (ys : List Bytes) (x : Bytes) (h : ys ≠ []) :
    joinArgs (ys ++ [x]) = joinArgs ys ++ ',' :: x := by
  induction ys with
  | nil => exact absurd rfl h
  | cons a ys ih =>
    cases ys with
    | nil => simp [joinArgs]
    | cons b ys =>
      have h2 := ih (by simp)
      simp only [List.cons_append, List.append_eq, joinArgs] at h2 ⊢
      simp [h2]

theorem joinArgs_last_snoc (acc : List Bytes) (x : Bytes) (c : Char) :
    joinArgs (acc ++ [x ++ [c]]) = joinArgs (acc ++ [x]) ++ [c] := by
  cases acc with
  | nil => simp [joinArgs]
  | cons a as =>
    rw [joinArgs_concat _ _ (by simp), joinArgs_concat _ _ (by simp)]
    simp

/-- Reconstruction invariant of the argument scanner: on success, the
scanned text is exactly the remaining arguments joined by commas,
followed by the outermost closing delimiter and the leftover text. -/
theorem parseAux_reconstruct :
    ∀ (rest : Bytes) (top : Char) (stk : List Char) (cur : Bytes)
      (acc : List Bytes) (prev : Char) (args : List Bytes) (rem : Bytes),
      parseAux top stk cur acc prev rest = .ok (args, rem) →
      joinArgs (acc ++ [cur]) ++ rest = joinArgs args ++ stk.getLastD top :: rem := by
  intro rest
  induction rest with
  | nil =>
    intro top stk cur acc prev args rem h
    simp [parseAux] at h
  | cons c r ih =>
    intro top stk cur acc prev args rem h
    simp only [parseAux] at h
    by_cases h1 : c = top
    · simp only [if_pos h1] at h
      cases stk with
      | nil =>
        simp only [Except.ok.injEq, Prod.mk.injEq] at h
        obtain ⟨rfl, rfl⟩ := h
        simp [h1]
      | cons t s =>
        have := ih t s (cur ++ [c]) acc c args rem h
        rw [joinArgs_last_snoc] at this
        simp only [List.getLastD_cons] at *
        rw [← this]
        simp [h1]
    · simp only [if_neg h1] at h
      by_cases h2 : c = '('
      · simp only [if_pos h2] at h
        have := ih ')' (top :: stk) (cur ++ [c]) acc c args rem h
        rw [joinArgs_last_snoc] at this
        simp only [List.getLastD_cons] at this
        rw [← this]
        simp
      · simp only [if_neg h2] at h
        by_cases h3 : c = lbrace
        · simp only [if_pos h3] at h
          have := ih rbrace (top :: stk) (cur ++ [c]) acc c args rem h
          rw [joinArgs_last_snoc] at this
          simp only [List.getLastD_cons] at this
          rw [← this]
          simp
        · simp only [if_neg h3] at h
          by_cases h4 : stk = [] ∧ c = ',' ∧ prev ≠ '\\'
          · simp only [if_pos h4] at h
            have := ih top [] [] (acc ++ [cur]) c args rem h
            rw [joinArgs_concat (acc ++ [cur]) [] (by simp)] at this
            obtain ⟨rfl, rfl, -⟩ := h4
            simp only [List.getLastD_nil] at *
            rw [← this]
            simp
          · simp only [if_neg h4] at h
            have := ih top stk (cur ++ [c]) acc c args rem h
            rw [joinArgs_last_snoc] at this
            rw [← this]
            simp

/-- Reconstruction for `parseArguments` with a parenthesised list. -/
theorem parseArguments_reconstruct (rest : Bytes) (opening closer : Char)
    (args : List Bytes) (rem : Bytes)
    (h : parseArguments rest opening closer = .ok (args, rem)) :
    rest = joinArgs args ++ closer :: rem := by
  have := parseAux_reconstruct rest closer [] [] [] opening args rem h
  simpa [joinArgs] using this

/-- Reconstruction for `parseInputPart`. -/
theorem parseInputPart_reconstruct (r : Bytes) (aO argsO : Option (List Bytes))
    (inpO : Option Bytes) (post2 : Bytes)
    (hr : parseInputPart aO r = .ok (argsO, inpO, post2)) :
    aO = argsO ∧ r = renderInpPart inpO ++ post2 := by
  match r with
  | [] =>
    simp only [parseInputPart, Except.ok.injEq, Prod.mk.injEq] at hr
    obtain ⟨h1, h2, h3⟩ := hr
    subst h1
    subst h3
    simp [← h2, renderInpPart]
  | c :: rest =>
    rw [parseInputPart] at hr
    by_cases hc : c = lbrace
    · simp only [if_pos hc] at hr
      cases hp : parseArguments rest lbrace rbrace with
      | error e => rw [hp] at hr; simp at hr
      | ok pr =>
        obtain ⟨ia, rem⟩ := pr
        rw [hp] at hr
        simp only [Except.ok.injEq, Prod.mk.injEq] at hr
        obtain ⟨h1, h2, h3⟩ := hr
        subst h1
        subst h3
        have hrec := parseArguments_reconstruct rest lbrace rbrace ia rem hp
        subst hc
        simp [hrec, ← h2, renderInpPart]
    · simp only [if_neg hc] at hr
      simp only [Except.ok.injEq, Prod.mk.injEq] at hr
      obtain ⟨h1, h2, h3⟩ := hr
      subst h1
      subst h3
      simp [← h2, renderInpPart]

/-- Reconstruction for the whole argument/input parse: what `parseCall`
consumed is exactly the bracketed text that `command_to_str` re-emits. -/
theorem parseCall_reconstruct (post : Bytes) (argsO : Option (List Bytes))
    (inpO : Option Bytes) (post2 : Bytes)
    (h : parseCall post = .ok (argsO, inpO, post2)) :
    post = renderArgsPart argsO ++ renderInpPart inpO ++ post2 := by
  match post with
  | [] =>
    simp only [parseCall, Except.ok.injEq, Prod.mk.injEq] at h
    obtain ⟨h1, h2, h3⟩ := h
    subst h3
    simp [← h1, ← h2, renderArgsPart, renderInpPart]
  | c :: rest =>
    rw [parseCall] at h
    by_cases hc : c = '('
    · simp only [if_pos hc] at h
      cases hp : parseArguments rest '(' ')' with
      | error e => rw [hp] at h; simp at h
      | ok pr =>
        obtain ⟨args, rem⟩ := pr
        rw [hp] at h
        obtain ⟨h1, hrem⟩ := parseInputPart_reconstruct rem (some args) argsO inpO post2 h
        have hrest := parseArguments_reconstruct rest '(' ')' args rem hp
        subst hc
        rw [← h1]
        simp [hrest, hrem, renderArgsPart]
    · simp only [if_neg hc] at h
      obtain ⟨h1, hr⟩ := parseInputPart_reconstruct (c :: rest) none argsO inpO post2 h
      rw [← h1]
      simpa [renderArgsPart] using hr

/-! ## Lemmas about marker recognition -/

theorem dropWhile_head_not (p : Char → Bool) :
    ∀ (l : Bytes) (d : Char) (ds : Bytes), l.dropWhile p = d :: ds → p d = false := by
  intro l
  induction l with
  | nil => intro d ds h; simp at h
  | cons c r ih =>
    intro d ds h
    rw [List.dropWhile_cons] at h
    by_cases hc : p c = true
    · simp only [if_pos hc] at h
      exact ih d ds h
    · simp only [if_neg hc] at h
      injection h with h1 h2
      subst h1
      simpa using hc

theorem mem_takeWhile_word (p : Char → Bool) :
    ∀ (l : Bytes) (x : Char), x ∈ l.takeWhile p → p x = true := by
  intro l
  induction l with
  | nil => intro x h; simp at h
  | cons c r ih =>
    intro x h
    rw [List.takeWhile_cons] at h
    by_cases hc : p c = true
    · simp only [if_pos hc] at h
      rcases List.mem_cons.mp h with h1 | h1
      · subst h1; exact hc
      · exact ih x h1
    · simp only [if_neg hc] at h
      simp at h

theorem consPre_some {c : Char} {o : Option (Bytes × Bool × Bytes × Bytes)}
    {pre : Bytes} {esc : Bool} {nm post : Bytes}
    (h : consPre c o = some (pre, esc, nm, post)) :
    ∃ p, o = some (p, esc, nm, post) ∧ pre = c :: p := by
  cases o with
  | none => simp [consPre] at h
  | some v =>
    obtain ⟨p, e, n, r⟩ := v
    simp only [consPre, Option.some.injEq, Prod.mk.injEq] at h
    obtain ⟨h1, h2, h3, h4⟩ := h
    subst h2
    subst h3
    subst h4
    exact ⟨p, rfl, h1.symm⟩

/-- The one-step unfolding of `findMarker` on a non-empty text. -/
theorem findMarker_cons (c : Char) (rest : Bytes) :
    findMarker (c :: rest) =
      if c = '\\' then
        match rest with
        | c1 :: c2 :: r2 =>
          if c1 = '$' ∧ letterChar c2 then
            some ([], true, c2 :: r2.takeWhile wordChar, r2.dropWhile wordChar)
          else consPre c (findMarker rest)
        | _ => consPre c (findMarker rest)
      else if c = '$' then
        match rest with
        | c2 :: r2 =>
          if letterChar c2 then
            some ([], false, c2 :: r2.takeWhile wordChar, r2.dropWhile wordChar)
          else consPre c (findMarker rest)
        | [] => none
      else consPre c (findMarker rest) := by
  rw [findMarker.eq_def]
  rfl

/-- Soundness of marker recognition: a found marker decomposes the text
into the part before it, an optional escaping backslash, a dollar sign,
a name starting with an ASCII letter and continuing with word
characters, maximal (the following character is not a word character),
and the rest. -/
theorem findMarker_decomp :
    ∀ (text pre : Bytes) (esc : Bool) (nm post : Bytes),
      findMarker text = some (pre, esc, nm, post) →
      text = pre ++ (if esc then ['\\'] else []) ++ '$' :: nm ++ post ∧
      (∃ c cs, nm = c :: cs ∧ letterChar c = true ∧
        ∀ x ∈ cs, wordChar x = true) ∧
      (∀ d ds, post = d :: ds → wordChar d = false) := by
  intro text
  induction text with
  | nil => intro pre esc nm post h; simp [findMarker] at h
  | cons c rest ih =>
    intro pre esc nm post h
    rw [findMarker_cons] at h
    split at h
    · rename_i hc
      split at h
      · rename_i c1 c2 r2
        split at h
        · rename_i hcond
          simp only [Option.some.injEq, Prod.mk.injEq] at h
          obtain ⟨h1, h2, h3, h4⟩ := h
          subst h1
          subst h3
          subst h4
          subst hc
          obtain ⟨hd, hl⟩ := hcond
          subst hd
          refine ⟨?_, ⟨c2, _, rfl, hl, fun x hx => mem_takeWhile_word _ _ _ hx⟩,
            fun d ds hd => dropWhile_head_not _ _ _ _ hd⟩
          rw [← h2]
          simp [List.takeWhile_append_dropWhile]
        · obtain ⟨p, ho, hp⟩ := consPre_some h
          subst hp
          obtain ⟨hd, hnm, hpost⟩ := ih p esc nm post ho
          exact ⟨by rw [hd]; simp, hnm, hpost⟩
      · obtain ⟨p, ho, hp⟩ := consPre_some h
        subst hp
        obtain ⟨hd, hnm, hpost⟩ := ih p esc nm post ho
        exact ⟨by rw [hd]; simp, hnm, hpost⟩
    · split at h
      · rename_i hc
        split at h
        · rename_i c2 r2
          split at h
          · rename_i hl
            simp only [Option.some.injEq, Prod.mk.injEq] at h
            obtain ⟨h1, h2, h3, h4⟩ := h
            subst h1
            subst h3
            subst h4
            subst hc
            refine ⟨?_, ⟨c2, _, rfl, hl, fun x hx => mem_takeWhile_word _ _ _ hx⟩,
              fun d ds hd => dropWhile_head_not _ _ _ _ hd⟩
            rw [← h2]
            simp [List.takeWhile_append_dropWhile]
          · obtain ⟨p, ho, hp⟩ := consPre_some h
            subst hp
            obtain ⟨hd, hnm, hpost⟩ := ih p esc nm post ho
            exact ⟨by rw [hd]; simp, hnm, hpost⟩
        · simp at h
      · obtain ⟨p, ho, hp⟩ := consPre_some h
        subst hp
        obtain ⟨hd, hnm, hpost⟩ := ih p esc nm post ho
        exact ⟨by rw [hd]; simp, hnm, hpost⟩

/-- Completeness at the head: a dollar sign followed by an ASCII letter
is recognised as an unescaped marker with the maximal word-character
name. -/
theorem findMarker_head (c2 : Char) (r2 : Bytes) (h : letterChar c2 = true) :
    findMarker ('$' :: c2 :: r2) =
      some ([], false, c2 :: r2.takeWhile wordChar, r2.dropWhile wordChar) := by
  rw [findMarker_cons, if_neg (by decide), if_pos rfl]
  simp [h]

/-! ## Lemmas about parse errors -/

/-- Every closing bracket ever pushed is `)` or `}`, so the parse error
message always names one of the two. -/
theorem parseAux_error_form :
    ∀ (rest : Bytes) (top : Char) (stk : List Char) (cur : Bytes)
      (acc : List Bytes) (prev : Char) (m : String),
      (top = ')' ∨ top = rbrace) → (∀ x ∈ stk, x = ')' ∨ x = rbrace) →
      parseAux top stk cur acc prev rest = .error m →
      m = "missing )" ∨ m = "missing " ++ String.singleton rbrace := by
  intro rest
  induction rest with
  | nil =>
    intro top stk cur acc prev m htop hstk h
    simp only [parseAux, Except.error.injEq] at h
    subst h
    rcases htop with h1 | h1 <;> rw [h1]
    · left; rfl
    · right; rfl
  | cons c r ih =>
    intro top stk cur acc prev m htop hstk h
    simp only [parseAux] at h
    by_cases h1 : c = top
    · simp only [if_pos h1] at h
      cases stk with
      | nil => simp at h
      | cons t s =>
        exact ih t s _ acc c m (hstk t (by simp))
          (fun x hx => hstk x (by simp [hx])) h
    · simp only [if_neg h1] at h
      by_cases h2 : c = '('
      · simp only [if_pos h2] at h
        exact ih ')' (top :: stk) _ acc c m (Or.inl rfl)
          (fun x hx => by
            rcases List.mem_cons.mp hx with hh | hh
            · exact hh ▸ htop
            · exact hstk x hh) h
      · simp only [if_neg h2] at h
        by_cases h3 : c = lbrace
        · simp only [if_pos h3] at h
          exact ih rbrace (top :: stk) _ acc c m (Or.inr rfl)
            (fun x hx => by
              rcases List.mem_cons.mp hx with hh | hh
              · exact hh ▸ htop
              · exact hstk x hh) h
        · simp only [if_neg h3] at h
          by_cases h4 : stk = [] ∧ c = ',' ∧ prev ≠ '\\'
          · simp only [if_pos h4] at h
            exact ih top [] [] (acc ++ [cur]) c m htop (by simp) h
          · simp only [if_neg h4] at h
            exact ih top stk _ acc c m htop hstk h

/-- An argument list or input body none of whose characters is the
expected closing bracket or an opening bracket runs off the end of the
input and reports exactly the missing closing delimiter. -/
theorem parseAux_unterminated :
    ∀ (rest : Bytes) (top : Char) (cur : Bytes) (acc : List Bytes) (prev : Char),
      (∀ x ∈ rest, x ≠ top ∧ x ≠ '(' ∧ x ≠ lbrace) →
      parseAux top [] cur acc prev rest =
        .error ("missing " ++ String.singleton top) := by
  intro rest
  induction rest with
  | nil => intro top cur acc prev hnone; simp [parseAux]
  | cons c r ih =>
    intro top cur acc prev hnone
    obtain ⟨h1, h2, h3⟩ := hnone c (by simp)
    have hrest : ∀ x ∈ r, x ≠ top ∧ x ≠ '(' ∧ x ≠ lbrace :=
      fun x hx => hnone x (by simp [hx])
    simp only [parseAux, if_neg h1, if_neg h2, if_neg h3]
    split
    · exact ih top [] (acc ++ [cur]) c hrest
    · exact ih top _ acc c hrest

/-! ## The include-stack invariant

`Expand._stack` is mutable state: each engine operation leaves it
unchanged when it returns normally, and only ever extends it (by the
files pushed and not yet popped) when it raises. -/

/-- The invariant of a stateful engine result with respect to the stack
`st` it started from: on success the stack is exactly restored, and in
every case the final stack extends the initial one. -/
def Inv {α : Type} (st : St) (x : M α) : Prop :=
  (∀ a : α, x.2 = Except.ok a → x.1 = st) ∧ ∃ ext, x.1 = st ++ ext

theorem inv_pure {α : Type} (st : St) (r : Except String α) : Inv st (st, r) := by
  constructor
  · intro a _
    rfl
  · exact ⟨[], by simp⟩

theorem inv_err {α : Type} {st st1 : St} (hext : ∃ ext, st1 = st ++ ext)
    (e : String) : Inv st ((st1, Except.error e) : M α) := by
  constructor
  · intro a ha
    simp at ha
  · exact hext

theorem inv_ok {α : Type} {st st1 : St} (h : st1 = st) (v : α) :
    Inv st ((st1, Except.ok v) : M α) := by
  constructor
  · intro a _
    exact h
  · exact ⟨[], by simp [h]⟩

theorem inv_ok_eq {α : Type} {st st1 : St} {x : M α} {v : α} (hI : Inv st x)
    (hx : x = (st1, Except.ok v)) : st1 = st := by
  have := hI.1 v (by rw [hx])
  rw [hx] at this
  simpa using this

theorem inv_err_ext {α : Type} {st st1 : St} {x : M α} {e : String}
    (hI : Inv st x) (hx : x = (st1, Except.error e)) : ∃ ext, st1 = st ++ ext := by
  have := hI.2
  rw [hx] at this
  simpa using this

theorem ext_trans {st st1 st2 : St} (h1 : ∃ e, st1 = st ++ e)
    (h2 : ∃ e, st2 = st1 ++ e) : ∃ e, st2 = st ++ e := by
  obtain ⟨e1, he1⟩ := h1
  obtain ⟨e2, he2⟩ := h2
  exact ⟨e1 ++ e2, by rw [he2, he1, List.append_assoc]⟩

theorem inv_mapOkVal {α β : Type} {st : St} (g : α → β) {x : M α}
    (hx : Inv st x) : Inv st (mapOkVal g x) := by
  rcases x with ⟨st1, r⟩
  cases r with
  | ok a =>
    have h1 := inv_ok_eq hx (rfl : (st1, Except.ok a) = (st1, Except.ok a))
    simp only [mapOkVal]
    exact inv_ok h1 _
  | error e =>
    have h1 := inv_err_ext hx (rfl : (st1, Except.error e) = (st1, Except.error e))
    simp only [mapOkVal]
    exact inv_err h1 e

theorem collect_inv_step (f : Nat)
    (ihC : ∀ env ctx st text, Inv st (collect f env ctx st text))
    (ihD : ∀ env ctx st name argsO inpO,
      Inv st (doMac f env ctx st name argsO inpO)) :
    ∀ env ctx st text, Inv st (collect (f + 1) env ctx st text) := by
  intro env ctx st text
  simp only [collect]
  split
  · exact inv_pure st _
  · split
    · exact inv_pure st _
    · split
      · split
        · rename_i st1 ps ins heq
          exact inv_ok (inv_ok_eq (ihC env ctx st _) heq) _
        · rename_i st1 e heq
          exact inv_err (inv_err_ext (ihC env ctx st _) heq) e
      · split
        · rename_i st1 out ins1 heqD
          have h1 := inv_ok_eq (ihD env ctx st _ _ _) heqD
          split
          · rename_i st2 ps ins2 heqC
            have h2 := inv_ok_eq (ihC env ctx st1 _) heqC
            exact inv_ok (by rw [h2, h1]) _
          · rename_i st2 e heqC
            have h2 := inv_err_ext (ihC env ctx st1 _) heqC
            exact inv_err (ext_trans ⟨[], by simp [h1]⟩ h2) e
        · rename_i st1 e heqD
          exact inv_err (inv_err_ext (ihD env ctx st _ _ _) heqD) e

theorem expand_inv_step (f : Nat)
    (ihC : ∀ env ctx st text, Inv st (collect f env ctx st text)) :
    ∀ env ctx st text, Inv st (expand (f + 1) env ctx st text) := by
  intro env ctx st text
  simp only [expand]
  split
  · rename_i st1 ps ins heq
    have h1 := inv_ok_eq (ihC env ctx st _) heq
    split
    · exact inv_ok h1 _
    · exact inv_err ⟨[], by simp [h1]⟩ _
  · rename_i st1 e heq
    exact inv_err (inv_err_ext (ihC env ctx st _) heq) e

theorem expandArg_inv_step (f : Nat)
    (ihE : ∀ env ctx st text, Inv st (expand f env ctx st text)) :
    ∀ env ctx st a, Inv st (expandArg (f + 1) env ctx st a) := by
  intro env ctx st a
  simp only [expandArg]
  exact ihE env ctx st _

theorem expandArgs_inv_step (f : Nat)
    (ihA : ∀ env ctx st a, Inv st (expandArg f env ctx st a))
    (ihAs : ∀ env ctx st as, Inv st (expandArgs f env ctx st as)) :
    ∀ env ctx st as, Inv st (expandArgs (f + 1) env ctx st as) := by
  intro env ctx st as
  simp only [expandArgs]
  split
  · exact inv_pure st _
  · rename_i a rest
    split
    · rename_i st1 a2 ins1 heqA
      have h1 := inv_ok_eq (ihA env ctx st a) heqA
      split
      · rename_i st2 rest2 ins2 heqAs
        have h2 := inv_ok_eq (ihAs env ctx st1 rest) heqAs
        exact inv_ok (by rw [h2, h1]) _
      · rename_i st2 e heqAs
        have h2 := inv_err_ext (ihAs env ctx st1 rest) heqAs
        exact inv_err (ext_trans ⟨[], by simp [h1]⟩ h2) e
    · rename_i st1 e heqA
      exact inv_err (inv_err_ext (ihA env ctx st a) heqA) e

theorem includeFile_inv_step (f : Nat)
    (ihE : ∀ env ctx st text, Inv st (expand f env ctx st text)) :
    ∀ env ctx st fp, Inv st (includeFile (f + 1) env ctx st fp) := by
  intro env ctx st fp
  simp only [includeFile]
  split
  · exact inv_err ⟨[fp], rfl⟩ _
  · split
    · rename_i st1 out ins heq
      have h1 := inv_ok_eq (ihE env ctx (st ++ [fp]) _) heq
      exact inv_ok (by rw [h1, List.dropLast_concat]) _
    · rename_i st1 e heq
      have h1 := inv_err_ext (ihE env ctx (st ++ [fp]) _) heq
      exact inv_err (ext_trans ⟨[fp], rfl⟩ h1) e

theorem doMac_inv_step (f : Nat)
    (ihA : ∀ env ctx st a, Inv st (expandArg f env ctx st a))
    (ihAs : ∀ env ctx st as, Inv st (expandArgs f env ctx st as))
    (ihM : ∀ env ctx st name argsO inpO,
      Inv st (macDispatch f env ctx st name argsO inpO)) :
    ∀ env ctx st name argsO inpO,
      Inv st (doMac (f + 1) env ctx st name argsO inpO) := by
  intro env ctx st name argsO inpO
  cases argsO with
  | none =>
    cases inpO with
    | none =>
      simp only [doMac]
      split
      · rename_i st3 out ins3 heq
        exact inv_ok (inv_ok_eq (ihM env ctx st _ _ _) heq) _
      · rename_i st3 e heq
        exact inv_err (inv_err_ext (ihM env ctx st _ _ _) heq) e
    | some i =>
      simp only [doMac]
      split
      · rename_i st1 e heq
        exact inv_err (inv_err_ext (inv_mapOkVal _ (ihA env ctx st i)) heq) e
      · rename_i st1 i2 ins2 heq
        have h1 := inv_ok_eq (inv_mapOkVal _ (ihA env ctx st i)) heq
        subst st1
        split
        · rename_i st3 out ins3 heqM
          exact inv_ok (inv_ok_eq (ihM env ctx st _ _ _) heqM) _
        · rename_i st3 e heqM
          exact inv_err (inv_err_ext (ihM env ctx st _ _ _) heqM) e
  | some as =>
    simp only [doMac]
    split
    · rename_i st1 e heqAs
      exact inv_err (inv_err_ext (inv_mapOkVal _ (ihAs env ctx st as)) heqAs) e
    · rename_i st1 args2 ins1 heqAs
      have h1 := inv_ok_eq (inv_mapOkVal _ (ihAs env ctx st as)) heqAs
      subst st1
      cases inpO with
      | none =>
        simp only []
        split
        · rename_i st3 out ins3 heqM
          exact inv_ok (inv_ok_eq (ihM env ctx st _ _ _) heqM) _
        · rename_i st3 e heqM
          exact inv_err (inv_err_ext (ihM env ctx st _ _ _) heqM) e
      | some i =>
        simp only []
        split
        · rename_i st2 e heqA
          exact inv_err (inv_err_ext (inv_mapOkVal _ (ihA env ctx st i)) heqA) e
        · rename_i st2 i2 ins2 heqA
          have h2 := inv_ok_eq (inv_mapOkVal _ (ihA env ctx st i)) heqA
          subst st2
          split
          · rename_i st3 out ins3 heqM
            exact inv_ok (inv_ok_eq (ihM env ctx st _ _ _) heqM) _
          · rename_i st3 e heqM
            exact inv_err (inv_err_ext (ihM env ctx st _ _ _) heqM) e

theorem macDispatch_inv_step (f : Nat)
    (ihE : ∀ env ctx st text, Inv st (expand f env ctx st text))
    (ihI : ∀ env ctx st fp, Inv st (includeFile f env ctx st fp)) :
    ∀ env ctx st name argsO inpO,
      Inv st (macDispatch (f + 1) env ctx st name argsO inpO) := by
  intro env ctx st name argsO inpO
  simp only [macDispatch]
  split
  · repeat' first
      | exact inv_pure st _
      | split
  · split
    · repeat' first
        | exact inv_pure st _
        | split
    · split
      · -- the expand macro
        split
        · exact inv_pure st _
        · split
          · exact inv_pure st _
          · split
            · rename_i st1 out ins heq
              exact inv_ok (inv_ok_eq (ihE env ctx st _) heq) _
            · rename_i st1 e heq
              exact inv_err (inv_err_ext (ihE env ctx st _) heq) e
      · split
        · -- the paste macro: no stateful subcall
          repeat' first
            | exact inv_pure st _
            | split
        · split
          · -- the include macro
            split
            · split
              · exact inv_pure st _
              · split
                · exact inv_pure st _
                · split
                  · rename_i st1 out ins heq
                    exact inv_ok (inv_ok_eq (ihI env ctx st _) heq) _
                  · rename_i st1 e heq
                    exact inv_err (inv_err_ext (ihI env ctx st _) heq) e
            · exact inv_pure st _
          · split
            · -- the run macro
              split
              · exact inv_pure st _
              · exact inv_pure st _
              · split
                · exact inv_pure st _
                · split
                  · -- RunMacros.run: optional input expansion
                    cases inpO with
                    | none => exact inv_pure st _
                    | some i =>
                      split
                      · rename_i st1 e heq
                        exact inv_err
                          (inv_err_ext (inv_mapOkVal _ (ihE env ctx st i)) heq) e
                      · rename_i st1 inp2 ins heq
                        exact inv_ok
                          (inv_ok_eq (inv_mapOkVal _ (ihE env ctx st i)) heq) _
                  · exact inv_pure st _
            · exact inv_pure st _

/-- The include-stack invariant holds of every engine operation, at
every fuel. -/
theorem inv_all : ∀ fuel : Nat,
    (∀ env ctx st text, Inv st (collect fuel env ctx st text)) ∧
    (∀ env ctx st text, Inv st (expand fuel env ctx st text)) ∧
    (∀ env ctx st a, Inv st (expandArg fuel env ctx st a)) ∧
    (∀ env ctx st as, Inv st (expandArgs fuel env ctx st as)) ∧
    (∀ env ctx st name argsO inpO,
      Inv st (doMac fuel env ctx st name argsO inpO)) ∧
    (∀ env ctx st name argsO inpO,
      Inv st (macDispatch fuel env ctx st name argsO inpO)) ∧
    (∀ env ctx st fp, Inv st (includeFile fuel env ctx st fp)) := by
  intro fuel
  induction fuel with
  | zero =>
    exact ⟨fun env ctx st text => by simp only [collect]; exact inv_pure st _,
      fun env ctx st text => by simp only [expand]; exact inv_pure st _,
      fun env ctx st a => by simp only [expandArg]; exact inv_pure st _,
      fun env ctx st as => by simp only [expandArgs]; exact inv_pure st _,
      fun env ctx st n a i => by simp only [doMac]; exact inv_pure st _,
      fun env ctx st n a i => by simp only [macDispatch]; exact inv_pure st _,
      fun env ctx st fp => by simp only [includeFile]; exact inv_pure st _⟩
  | succ f ih =>
    obtain ⟨ihC, ihE, ihA, ihAs, ihD, ihM, ihI⟩ := ih
    exact ⟨collect_inv_step f ihC ihD, expand_inv_step f ihC,
      expandArg_inv_step f ihE, expandArgs_inv_step f ihA ihAs,
      doMac_inv_step f ihA ihAs ihM, macDispatch_inv_step f ihE ihI,
      includeFile_inv_step f ihE⟩

/-! ## Expansion equations -/

/-- Map the text component of a successful expansion. -/
def mapOut (g : Bytes → Bytes) : M (Bytes × List FPath) → M (Bytes × List FPath)
  | (st1, Except.ok (b, ins)) => (st1, Except.ok (g b, ins))
  | (st1, Except.error e) => (st1, Except.error e)

/-- Text with no macro marker expands to itself, reading no inputs. -/
theorem expand_noMarker (f : Nat) (env : Env) (ctx : Ctx) (st : St) (t : Bytes)
    (h : findMarker t = none) :
    expand (f + 2) env ctx st t = (st, .ok (t, [])) := by
  simp [expand, collect, h, splice]

/-- The escaped-invocation step of the scanner: when the first marker is
escaped, the output is the reconstituted call text spliced before the
expansion of the rest, the include-stack is untouched, and no macro is
dispatched — the equation holds for every environment and macro set. -/
theorem expand_escaped (f : Nat) (env : Env) (ctx : Ctx) (st : St)
    (text pre name post post2 : Bytes) (argsO : Option (List Bytes))
    (inpO : Option Bytes)
    (hfind : findMarker text = some (pre, true, name, post))
    (hparse : parseCall post = .ok (argsO, inpO, post2)) :
    expand (f + 2) env ctx st text =
      mapOut (fun b => pre ++ cmdToStr name argsO inpO ++ b)
        (expand (f + 1) env ctx st post2) := by
  rcases hc : collect f env ctx st post2 with ⟨st1, rc⟩
  cases rc with
  | ok v =>
    obtain ⟨ps, ins⟩ := v
    cases hs : splice ps with
    | ok b =>
      simp [expand, collect, hfind, hparse, hc, hs, splice, mapOut]
    | error e =>
      simp [expand, collect, hfind, hparse, hc, hs, splice, mapOut]
  | error e =>
    simp [expand, collect, hfind, hparse, hc, mapOut]

/-- A successful `Expand.include` records the included file itself among
the computed inputs. -/
theorem includeFile_ok_mem (fuel : Nat) (env : Env) (ctx : Ctx) (st : St)
    (fp : FPath) (st' : St) (out : Bytes) (ins : List FPath)
    (h : includeFile fuel env ctx st fp = (st', .ok (out, ins))) : fp ∈ ins := by
  cases fuel with
  | zero => simp [includeFile] at h
  | succ f =>
    simp only [includeFile] at h
    split at h
    · simp at h
    · split at h
      · simp only [Prod.mk.injEq, Except.ok.injEq] at h
        obtain ⟨-, -, h2⟩ := h
        rw [← h2]
        simp
      · simp at h

/-! ## Overlay resolution lemmas -/

/-- Does root number `j` of the overlay contain `p`
(`(self.inputs[j] / obj).exists()`)? -/
def existsAtB (fs : List RootFs) (j : Nat) (p : RelPath) : Bool :=
  match fs.get? j with
  | some r => (rootGet r p).isSome
  | none => false

theorem findObjAux_spec :
    ∀ (rs : List RootFs) (p : RelPath) (i k : Nat) (r : RootFs),
      rs.get? k = some r → (rootGet r p).isSome = true →
      (∀ j, j < k → ∀ r', rs.get? j = some r' → (rootGet r' p).isSome = false) →
      findObjAux p i rs = some (i + k, p) := by
  intro rs
  induction rs with
  | nil => intro p i k r hk; simp at hk
  | cons r0 rest ih =>
    intro p i k r hk hex hmin
    cases k with
    | zero =>
      simp only [List.get?_cons_zero, Option.some.injEq] at hk
      subst hk
      simp [findObjAux, hex]
    | succ k =>
      have h0 : (rootGet r0 p).isSome = false :=
        hmin 0 (Nat.succ_pos k) r0 rfl
      simp only [findObjAux, h0, Bool.false_eq_true, if_false]
      have := ih p (i + 1) k r (by simpa using hk) hex
        (fun j hj r' hr' => hmin (j + 1) (Nat.succ_lt_succ hj) r' (by simpa using hr'))
      rw [this]
      simp only [Option.some.injEq, Prod.mk.injEq]
      exact ⟨by omega, trivial⟩

/-- `Trees.find_object` resolves to the leftmost root containing the
object: if root `i` contains `p` and no earlier root does, the result is
`p` inside root `i`. -/
theorem findObject_first (fs : List RootFs) (p : RelPath) (i : Nat)
    (h1 : existsAtB fs i p = true) (h2 : ∀ j, j < i → existsAtB fs j p = false) :
    findObject fs p = some (i, p) := by
  unfold existsAtB at h1
  cases hk : fs.get? i with
  | none => rw [hk] at h1; simp at h1
  | some r =>
    rw [hk] at h1
    have := findObjAux_spec fs p 0 i r hk h1
      (fun j hj r' hr' => by
        have := h2 j hj
        unfold existsAtB at this
        rw [hr'] at this
        exact this)
    simpa using this

/-- `Trees.scandir` merges exactly the child names of every root that
has `p` as a directory. -/
theorem scandir_mem (fs : List RootFs) (p : RelPath) (n : String) :
    n ∈ scandir fs p ↔
      ∃ r ∈ fs, ∃ kids, rootGet r p = some (.dir kids) ∧ n ∈ kids := by
  unfold scandir
  rw [List.mem_dedup, List.mem_flatten]
  constructor
  · rintro ⟨l, hl, hn⟩
    obtain ⟨r, hr, hcl⟩ := List.mem_map.mp hl
    refine ⟨r, hr, ?_⟩
    unfold childrenOf at hcl
    split at hcl
    · rename_i kids hk
      exact ⟨kids, hk, hcl ▸ hn⟩
    · rw [← hcl] at hn; simp at hn
  · rintro ⟨r, hr, kids, hk, hn⟩
    exact ⟨childrenOf r p, List.mem_map.mpr ⟨r, hr, rfl⟩,
      by simp [childrenOf, hk, hn]⟩

/-! ## Upward search lemmas -/

theorem candAt_not_on_stack (env : Env) (st : St) (q : RelPath) (p : FPath)
    (h : candAt env st q = some p) : p ∉ st := by
  unfold candAt at h
  split at h
  · rename_i op hop
    split at h
    · rename_i hcond
      simp only [Option.some.injEq] at h
      rw [← h]
      exact hcond.2
    · simp at h
  · simp at h

theorem findSome?_eq_none_of_all {α β : Type} (f : α → Option β) :
    ∀ (l : List α), (∀ a ∈ l, f a = none) → l.findSome? f = none := by
  intro l
  induction l with
  | nil => intro; simp
  | cons a rest ih =>
    intro h
    rw [List.findSome?_cons, h a (by simp)]
    exact ih (fun x hx => h x (by simp [hx]))

/-- `Expand.find_on_path` never returns a file on the include-stack. -/
theorem findOnPath_not_on_stack (env : Env) (st : St) (start file : RelPath)
    (p : FPath) (h : findOnPath env st start file = some p) : p ∉ st := by
  unfold findOnPath at h
  obtain ⟨l1, parent, l2, -, hcand, -⟩ := List.findSome?_eq_some_iff.mp h
  exact candAt_not_on_stack env st _ p hcand

/-- When every candidate up the directory tree is blocked (absent, not a
file, or on the include-stack), `find_on_path` fails and the non-`exe`
`file_arg` raises the generic not-found error. -/
theorem fileArg_cannot_find (env : Env) (ctx : Ctx) (st : St) (arg : Bytes)
    (hall : ∀ parent ∈ selfAndAncestors (parentOf ctx.path),
      candAt env st (parent ++ normPath (parsePathStr (String.mk arg))) = none) :
    findOnPath env st (parentOf ctx.path) (parsePathStr (String.mk arg)) = none ∧
    fileArg env ctx st arg false =
      .error ("cannot find '" ++ renderPath (parsePathStr (String.mk arg))
        ++ "' while expanding '" ++ renderPath (parentOf ctx.path) ++ "'") := by
  have hnone : findOnPath env st (parentOf ctx.path)
      (parsePathStr (String.mk arg)) = none := by
    unfold findOnPath
    exact findSome?_eq_none_of_all _ _ hall
  refine ⟨hnone, ?_⟩
  simp [fileArg, hnone]

/-! ## Update-mode lemmas -/

/-- `Trees._check_output_newer` holds exactly when the output exists and
is at least as new as every input. -/
theorem checkOutputNewer_iff (u : Upd) (inputs : List FPath) (out : RelPath) :
    checkOutputNewer u inputs out = true ↔
      ∃ m, u.outExists out = some m ∧ ∀ i ∈ inputs, u.mtime i ≤ m := by
  unfold checkOutputNewer
  cases h : u.outExists out with
  | none => simp
  | some m => simp [List.all_eq_true]

/-! ## Concrete environments used by witnesses and counterexamples -/

/-- An empty overlay (no input roots). -/
def env0 : Env := ⟨[], [], fun _ => none, fun _ _ _ => (1, [])⟩

/-- A context for a file at the overlay root, `RunMacros` set. -/
def ctx0 : Ctx := ⟨[], none, true⟩

/-- Overlay with two roots both containing directory `d`: `d/x` only in
the first, `d/z` only in the second, `d/y` in both with different
contents. -/
def rootA : RootFs :=
  [(["d"], .dir ["x", "y"]), (["d", "x"], .file "xA".data),
   (["d", "y"], .file "yA".data)]

/-- The second root of the two-root overlay. -/
def rootB : RootFs :=
  [(["d"], .dir ["y", "z"]), (["d", "y"], .file "yB".data),
   (["d", "z"], .file "zB".data)]

/-- The two-root overlay. -/
def fsC1 : List RootFs := [rootA, rootB]

/-- The worked example tree: `a/page.nancy.txt` includes `a/name.txt`
with the parenthesised argument form. -/
def envC2 : Env :=
  ⟨[[(["a"], .dir ["page.nancy.txt", "name.txt"]),
     (["a", "page.nancy.txt"], .file "Hello $include(name.txt)".data),
     (["a", "name.txt"], .file "World\n".data)]],
   ["src"], fun _ => none, fun _ _ _ => (1, [])⟩

/-- The worked example tree with the braced input form
`$include{name.txt}` instead. -/
def envC2b : Env :=
  ⟨[[(["a"], .dir ["page.nancy.txt", "name.txt"]),
     (["a", "page.nancy.txt"],
       .file ("Hello $include".data ++ lbrace :: "name.txt".data ++ [rbrace])),
     (["a", "name.txt"], .file "World\n".data)]],
   ["src"], fun _ => none, fun _ _ _ => (1, [])⟩

/-- A tree with only an input-only fragment file. -/
def envC3 : Env :=
  ⟨[[(["frag.in.txt"], .file "hi".data)]], ["src"], fun _ => none,
   fun _ _ _ => (1, [])⟩

/-- Modification times with no existing output. -/
def uC3 : Upd := ⟨fun _ => 0, fun _ => none⟩

/-- A template whose only macro is `$run(p.sh)`. -/
def envC3b : Env :=
  ⟨[[(["t.nancy.txt"], .file "$run(p.sh)".data), (["p.sh"], .file "xx".data)]],
   ["src"], fun _ => none, fun _ _ _ => (0, "out".data)⟩

/-- Modification times where the run executable is newer than the
existing output but the template itself is older. -/
def uC3b : Upd :=
  ⟨fun fp => if fp = .inTree 0 ["p.sh"] then 10 else 0, fun _ => some 5⟩

/-- An escaped invocation with arguments, an escaped comma, and a braced
body, surrounded by plain text. -/
def textC4 : Bytes :=
  "x\\$foo(a\\,b)".data ++ lbrace :: 'c' :: rbrace :: "y".data

/-- A tree for `$paste`: the pasted file contains a macro marker and a
trailing newline. -/
def envC5 : Env :=
  ⟨[[(["t.nancy.txt"], .file "$paste(n.txt)".data),
     (["n.txt"], .file "Wo$path\n".data)]],
   ["src"], fun _ => none, fun _ _ _ => (1, [])⟩

/-- The context of the pasting template. -/
def ctxC5 : Ctx := ⟨["t.nancy.txt"], some ["t.txt"], true⟩

/-- A tree with an innocuous file and one whose contents raise an
unknown-macro error. -/
def envC6 : Env :=
  ⟨[[(["good.txt"], .file "hi".data), (["bad.txt"], .file "$nosuch".data)]],
   ["src"], fun _ => none, fun _ _ _ => (1, [])⟩

/-- A seed entry so the witness exercises a non-empty prior stack. -/
def p0 : FPath := .system "seed"

/-- A tree whose only file includes itself. -/
def envC8 : Env :=
  ⟨[[(["self.txt"], .file "$include(self.txt)".data)]], ["src"],
   fun _ => none, fun _ _ _ => (1, [])⟩

/-- The context of the self-including file. -/
def ctxC8 : Ctx := ⟨["self.txt"], some ["self.txt"], true⟩

/-- The include-stack while `self.txt` is being expanded. -/
def stC8 : St := [.inTree 0 ["self.txt"]]

/-! ## The claims -/

/-- C1 (amended): for every overlay and relative path, `find_object`
resolves to the first (leftmost) root containing the object, and the
merged directory listing contains every child name from every root that
has that directory.  For a child present in more than one root, the
version from the *first* (leftmost) root wins — resolution of a merged
directory's child goes back through `find_object` — not the last root as
claimed. -/
theorem claim_c1_overlay (fs : List RootFs) (p : RelPath) (n : String) :
    (∀ i, existsAtB fs i p = true → (∀ j, j < i → existsAtB fs j p = false) →
      findObject fs p = some (i, p)) ∧
    (n ∈ scandir fs p ↔
      ∃ r ∈ fs, ∃ kids, rootGet r p = some (.dir kids) ∧ n ∈ kids) := by
  exact ⟨fun i h1 h2 => findObject_first fs p i h1 h2, scandir_mem fs p n⟩

/-- C1 witness: in the two-root overlay, `d/y` resolves into root 0, and
`d`'s merged listing contains root 1's extra child `z`. -/
theorem claim_c1_overlay_witness :
    findObject fsC1 ["d", "y"] = some (0, ["d", "y"]) ∧
    "z" ∈ scandir fsC1 ["d"] :=
  ⟨(claim_c1_overlay fsC1 ["d", "y"] "z").1 0 (by decide)
      (fun j hj => absurd hj (by omega)),
   (claim_c1_overlay fsC1 ["d"] "z").2.mpr
      ⟨rootB, by decide, ["y", "z"], by decide, by decide⟩⟩

/-- C1 counterexample: `y` is a child of the merged directory `d`
present in both roots, yet resolution yields root 0's version (`yA`),
not the last root's (`yB`) — "rightmost root wins" is false. -/
theorem claim_c1_counterexample :
    "y" ∈ scandir fsC1 ["d"] ∧
    findObject fsC1 ["d", "y"] = some (0, ["d", "y"]) ∧
    readFs fsC1 (.inTree 0 ["d", "y"]) = some "yA".data ∧
    readFs fsC1 (.inTree 1 ["d", "y"]) = some "yB".data ∧
    "yA".data ≠ "yB".data := by
  refine ⟨by decide, by decide, by decide, by decide, by decide⟩

/-- C2 (amended): the worked example builds `a/page.txt` containing
`Hello World` when the include uses the parenthesised argument form
`$include(name.txt)`; the braced form is rejected (see the
counterexample). -/
theorem claim_c2_include_example :
    processEmit 20 envC2 0 ["a", "page.nancy.txt"] =
      .ok (["a", "page.txt"], "Hello World".data) := by
  decide

/-- C2 counterexample: with the claim's braced form `$include{name.txt}`
the build fails — `Macros.include` requires exactly one parenthesised
argument and takes no braced input. -/
theorem claim_c2_counterexample :
    processEmit 20 envC2b 0 ["a", "page.nancy.txt"] =
      .error "$include needs exactly one argument" := by
  decide

/-- C3 (amended): in update mode, for every *emitted* file (input-only
files are never written, whatever the timestamps), the write is skipped
exactly when the output exists and its modification time is at least
that of every dependency, where the dependency list is the file itself
for copied and plain files, and for templates every file collected by
the dry expansion pass — which contains the file itself and the
`$include`/`$paste` targets, and also the executables resolved by
`$run`. -/
theorem claim_c3_update (fuel : Nat) (env : Env) (u : Upd) (rootIdx : Nat)
    (path outP : RelPath) (deps : List FPath)
    (hout : setOutputPath fuel env true [] path = .ok outP)
    (hemit : copyMatch (lastName path) = true ∨ inMatch (lastName path) = false)
    (hdeps : updDeps fuel env rootIdx path = .ok deps) :
    (updateDecision fuel env u rootIdx path = .ok .upToDate ↔
      ∃ m, u.outExists outP = some m ∧ ∀ d ∈ deps, u.mtime d ≤ m) ∧
    FPath.inTree rootIdx path ∈ deps := by
  constructor
  · have hskip : ¬ (¬ copyMatch (lastName path) ∧ inMatch (lastName path)) := by
      rcases hemit with h | h <;> simp [h]
    rw [← checkOutputNewer_iff u deps outP]
    unfold updateDecision
    rw [hout]
    simp only [hskip, if_false, hdeps]
    cases hb : checkOutputNewer u deps outP <;> simp [hb]
  · unfold updDeps at hdeps
    by_cases hc : copyMatch (lastName path) = true
    · simp only [hc, if_true] at hdeps
      simp only [Except.ok.injEq] at hdeps
      rw [← hdeps]
      simp
    · by_cases ht : templateMatch (lastName path) = true
      · simp only [if_neg hc, if_pos ht] at hdeps
        split at hdeps
        · simp at hdeps
        · split at hdeps
          · rename_i st1 out ins heq
            simp only [Except.ok.injEq] at hdeps
            rw [← hdeps]
            exact includeFile_ok_mem fuel env _ [] _ st1 out ins heq
          · simp at hdeps
      · simp only [if_neg hc, if_neg ht] at hdeps
        simp only [Except.ok.injEq] at hdeps
        rw [← hdeps]
        simp

/-- C3 witness: for the `$run` template, the dry pass collects both the
template and the run executable, and the skip decision is exactly the
mtime comparison over that list. -/
theorem claim_c3_update_witness :
    (updateDecision 20 envC3b uC3b 0 ["t.nancy.txt"] = .ok .upToDate ↔
      ∃ m, uC3b.outExists ["t.txt"] = some m ∧
        ∀ d ∈ [FPath.inTree 0 ["p.sh"], FPath.inTree 0 ["t.nancy.txt"]],
          uC3b.mtime d ≤ m) ∧
    FPath.inTree 0 ["t.nancy.txt"] ∈
      [FPath.inTree 0 ["p.sh"], FPath.inTree 0 ["t.nancy.txt"]] :=
  claim_c3_update 20 envC3b uC3b 0 ["t.nancy.txt"] ["t.txt"]
    [.inTree 0 ["p.sh"], .inTree 0 ["t.nancy.txt"]]
    (by decide) (by decide) (by decide)

/-- C3 counterexample: an input-only file (`frag.in.txt`) is never
written in update mode, although no output file exists, so the claimed
"skipped iff output exists and is newer than the dependencies" fails:
the claim's condition is false (no output), yet the write is skipped. -/
theorem claim_c3_counterexample :
    updateDecision 20 envC3 uC3 0 ["frag.in.txt"] = .ok .notEmitted ∧
    checkOutputNewer uC3 [.inTree 0 ["frag.in.txt"]] ["frag.in.txt"] = false := by
  refine ⟨by decide, by decide⟩

/-- C4 (confirmed): an invocation matched with the escaping backslash is
never executed — the result is the same for every environment and macro
set, with the include-stack untouched — and its output is the literal
invocation text with only the leading backslash removed: the text
decomposes as `pre ++ backslash ++ call ++ rest` with the spliced output
exactly `pre ++ call`, for every argument/body shape the parser
accepts. -/
theorem claim_c4_escaped (f : Nat) (env : Env) (ctx : Ctx) (st : St)
    (text pre name post post2 : Bytes) (argsO : Option (List Bytes))
    (inpO : Option Bytes)
    (hfind : findMarker text = some (pre, true, name, post))
    (hparse : parseCall post = .ok (argsO, inpO, post2)) :
    text = pre ++ '\\' :: cmdToStr name argsO inpO ++ post2 ∧
    expand (f + 2) env ctx st text =
      mapOut (fun b => pre ++ cmdToStr name argsO inpO ++ b)
        (expand (f + 1) env ctx st post2) := by
  constructor
  · obtain ⟨hd, -, -⟩ := findMarker_decomp text pre true name post hfind
    have hp := parseCall_reconstruct post argsO inpO post2 hparse
    rw [hd, hp]
    simp [cmdToStr]
  · exact expand_escaped f env ctx st text pre name post post2 argsO inpO
      hfind hparse

/-- C4 witness: `x\$foo(a\,b){c}y` (with an escaped comma) reconstitutes
verbatim minus the backslash, around the expansion of the rest. -/
theorem claim_c4_escaped_witness :
    textC4 = "x".data ++ '\\' ::
        cmdToStr "foo".data (some ["a\\,b".data]) (some "c".data) ++ "y".data ∧
    expand 6 env0 ctx0 [] textC4 =
      mapOut (fun b => "x".data ++
          cmdToStr "foo".data (some ["a\\,b".data]) (some "c".data) ++ b)
        (expand 5 env0 ctx0 [] "y".data) :=
  claim_c4_escaped 4 env0 ctx0 [] textC4 "x".data "foo".data
    ("(a\\,b)".data ++ lbrace :: 'c' :: rbrace :: "y".data) "y".data
    (some ["a\\,b".data]) (some "c".data) (by decide) (by decide)

/-- C5 (amended): `$paste` returns the located file's raw bytes — not
macro-expanded (the contents `c` are arbitrary and returned verbatim)
and with *no* trailing-newline removal: unlike `$include`, `Macros.paste`
does not apply `strip_final_newline`. -/
theorem claim_c5_paste_raw (j : Nat) (env : Env) (ctx : Ctx) (st : St)
    (text name nm : Bytes) (p : FPath) (c : Bytes)
    (hname : String.mk name = "paste")
    (hfind : findMarker text = some ([], false, name, '(' :: (nm ++ [')'])))
    (hparse : parseArguments (nm ++ [')']) '(' ')' = .ok ([nm], []))
    (harg : expandArg (j + 1) env ctx st nm = (st, .ok (nm, [])))
    (hfa : fileArg env ctx st nm false = .ok p)
    (hread : readFs env.fs p = some c) :
    expand (j + 5) env ctx st text = (st, .ok (c, [p])) := by
  have h1 : expandArgs (j + 2) env ctx st [nm] = (st, .ok ([nm], [])) := by
    simp [expandArgs, harg]
  have h2 : macDispatch (j + 2) env ctx st name (some [nm]) none =
      (st, .ok (.txt c, [p])) := by
    simp [macDispatch, hname, hfa, hread]
  have h3 : doMac (j + 3) env ctx st name (some [nm]) none =
      (st, .ok (.txt c, [p])) := by
    simp [doMac, h1, h2, mapOkVal]
  have h4 : parseCall ('(' :: (nm ++ [')'])) = .ok (some [nm], none, []) := by
    simp [parseCall, hparse, parseInputPart]
  have h5 : collect (j + 4) env ctx st text =
      (st, .ok ([.txt [], .txt c, .txt []], [p])) := by
    simp [collect, hfind, h4, h3, findMarker]
  simp [expand, h5, splice]

/-- C5 witness: the pasted file's contents `Wo$path\n` come through with
the macro marker unexpanded and the trailing newline kept. -/
theorem claim_c5_paste_raw_witness :
    expand 7 envC5 ctxC5 [] "$paste(n.txt)".data =
      ([], .ok ("Wo$path\n".data, [FPath.inTree 0 ["n.txt"]])) :=
  claim_c5_paste_raw 2 envC5 ctxC5 [] "$paste(n.txt)".data "paste".data
    "n.txt".data (.inTree 0 ["n.txt"]) "Wo$path\n".data
    (by decide) (by decide) (by decide) (by decide) (by decide) (by decide)

/-- C5 counterexample: pasting a file containing `World\n` yields
`World\n`, not the claimed newline-stripped `World`. -/
theorem claim_c5_counterexample :
    expand 9 envC5 ctxC5 [] "$paste(n.txt)".data =
      ([], .ok ("Wo$path\n".data, [FPath.inTree 0 ["n.txt"]])) ∧
    stripFinalNewline "Wo$path\n".data ≠ "Wo$path\n".data := by
  refine ⟨by decide, by decide⟩

/-- C6 (amended): `Expand.include` restores the include-stack on every
*successful* exit; on an error exit the pushed file is *not* popped (the
source has no `try`/`finally`), and the stack propagates with the file
still on it — harmless only because every error aborts the whole run. -/
theorem claim_c6_stack (f : Nat) (env : Env) (ctx : Ctx) (st : St) (fp : FPath) :
    (∀ st' out ins,
      includeFile (f + 1) env ctx st fp = (st', .ok (out, ins)) → st' = st) ∧
    (∀ st' e, includeFile (f + 1) env ctx st fp = (st', .error e) →
      ∃ ext, st' = (st ++ [fp]) ++ ext) := by
  constructor
  · intro st' out ins h
    exact inv_ok_eq ((inv_all (f + 1)).2.2.2.2.2.2 env ctx st fp) h
  · intro st' e h
    simp only [includeFile] at h
    split at h
    · simp only [Prod.mk.injEq, Except.error.injEq] at h
      exact ⟨[], by rw [← h.1]; simp⟩
    · split at h
      · simp at h
      · rename_i st1 e1 heq
        simp only [Prod.mk.injEq, Except.error.injEq] at h
        obtain ⟨ext, hext⟩ :=
          inv_err_ext ((inv_all f).2.1 env ctx (st ++ [fp]) _) heq
        exact ⟨ext, by rw [← h.1, hext]⟩

/-- C6 witness: a successful include restores the prior stack; a failing
include leaves the pushed file on it. -/
theorem claim_c6_stack_witness :
    ([p0] : St) = [p0] ∧
    ∃ ext, ([p0, FPath.inTree 0 ["bad.txt"]] : St) =
      ([p0] ++ [FPath.inTree 0 ["bad.txt"]]) ++ ext :=
  ⟨(claim_c6_stack 8 envC6 ctx0 [p0] (.inTree 0 ["good.txt"])).1
      [p0] "hi".data [.inTree 0 ["good.txt"]] (by decide),
    (claim_c6_stack 8 envC6 ctx0 [p0] (.inTree 0 ["bad.txt"])).2
      [p0, .inTree 0 ["bad.txt"]] "no such macro '$nosuch'" (by decide)⟩

/-- C6 counterexample: when expanding the included file's contents
raises, the file pushed for the inclusion is still on the stack when the
error propagates — it is not popped, contradicting the claim. -/
theorem claim_c6_counterexample :
    includeFile 9 envC6 ctx0 [] (.inTree 0 ["bad.txt"]) =
      ([FPath.inTree 0 ["bad.txt"]], .error "no such macro '$nosuch'") := by
  decide

/-- C7 (confirmed): a parse failure of an argument list or input body is
always the fatal `missing X` error naming a closing delimiter, `)` or
`}`; in particular an opening bracket whose closer never occurs (and
with no nested opening brackets) fails naming exactly its own closing
delimiter. -/
theorem claim_c7_missing_delimiter :
    (∀ (rest : Bytes) (opening closer : Char) (m : String),
      (closer = ')' ∨ closer = rbrace) →
      parseArguments rest opening closer = .error m →
      m = "missing )" ∨ m = "missing " ++ String.singleton rbrace) ∧
    (∀ (rest : Bytes) (opening closer : Char),
      (∀ x ∈ rest, x ≠ closer ∧ x ≠ '(' ∧ x ≠ lbrace) →
      parseArguments rest opening closer =
        .error ("missing " ++ String.singleton closer)) := by
  constructor
  · intro rest opening closer m hc h
    exact parseAux_error_form rest closer [] [] [] opening m hc (by simp) h
  · intro rest opening closer hnone
    exact parseAux_unterminated rest closer [] [] opening hnone

/-- C7 witness: an unterminated `(` inside braces reports `missing )`;
an unterminated `{` over plain text reports `missing }`. -/
theorem claim_c7_missing_delimiter_witness :
    ("missing )" = "missing )" ∨
      "missing )" = "missing " ++ String.singleton rbrace) ∧
    parseArguments "abc".data lbrace rbrace =
      .error ("missing " ++ String.singleton rbrace) :=
  ⟨claim_c7_missing_delimiter.1 "a(b".data lbrace rbrace "missing )"
      (Or.inr rfl) (by decide),
   claim_c7_missing_delimiter.2 "abc".data lbrace rbrace (by decide)⟩

/-- C8 (confirmed): the upward search never returns a file that is on
the current include-stack (an on-stack candidate is rejected exactly as
a missing one, and the search moves on), so an attempted include cycle
makes every candidate blocked and `file_arg` raises the generic
`cannot find` error — not a distinct cycle error. -/
theorem claim_c8_cycle_not_found (env : Env) (ctx : Ctx) (st : St) (arg : Bytes) :
    (∀ start file p, findOnPath env st start file = some p → p ∉ st) ∧
    ((∀ parent ∈ selfAndAncestors (parentOf ctx.path),
        candAt env st (parent ++ normPath (parsePathStr (String.mk arg))) = none) →
      findOnPath env st (parentOf ctx.path) (parsePathStr (String.mk arg)) = none ∧
      fileArg env ctx st arg false =
        .error ("cannot find '" ++ renderPath (parsePathStr (String.mk arg))
          ++ "' while expanding '" ++ renderPath (parentOf ctx.path) ++ "'")) := by
  exact ⟨fun start file p h => findOnPath_not_on_stack env st start file p h,
    fun hall => fileArg_cannot_find env ctx st arg hall⟩

/-- C8 witness: while `self.txt` is on the stack, resolving
`self.txt` from inside it fails with the generic not-found error. -/
theorem claim_c8_cycle_not_found_witness :
    findOnPath envC8 stC8 (parentOf ctxC8.path)
      (parsePathStr (String.mk "self.txt".data)) = none ∧
    fileArg envC8 ctxC8 stC8 "self.txt".data false =
      .error ("cannot find '" ++ renderPath (parsePathStr (String.mk "self.txt".data))
        ++ "' while expanding '" ++ renderPath (parentOf ctxC8.path) ++ "'") :=
  (claim_c8_cycle_not_found envC8 ctxC8 stC8 "self.txt".data).2 (by decide)

/-- C9 (amended): a macro marker is `$` followed immediately by an
identifier whose first character is an ASCII *letter* — an underscore is
excluded by `[^\W\d_]`, so `$_foo` is *not* recognised — and whose
remaining characters are word characters, taken maximally. -/
theorem claim_c9_marker :
    (∀ (text pre : Bytes) (esc : Bool) (nm post : Bytes),
      findMarker text = some (pre, esc, nm, post) →
      ∃ c cs, nm = c :: cs ∧ letterChar c = true ∧
        (∀ x ∈ cs, wordChar x = true) ∧
        text = pre ++ (if esc then ['\\'] else []) ++ '$' :: nm ++ post ∧
        (∀ d ds, post = d :: ds → wordChar d = false)) ∧
    (∀ (c : Char) (r : Bytes), letterChar c = true →
      findMarker ('$' :: c :: r) =
        some ([], false, c :: r.takeWhile wordChar, r.dropWhile wordChar)) := by
  constructor
  · intro text pre esc nm post h
    obtain ⟨hd, ⟨c, cs, hnm, hl, hw⟩, hpost⟩ :=
      findMarker_decomp text pre esc nm post h
    exact ⟨c, cs, hnm, hl, hw, hd, hpost⟩
  · exact findMarker_head

/-- C9 witness: `$a_1b+` is recognised with the maximal name `a_1b`
(underscore and digit allowed after the initial letter). -/
theorem claim_c9_marker_witness :
    findMarker ('$' :: 'a' :: "_1b+".data) =
      some ([], false, 'a' :: ("_1b+".data).takeWhile wordChar,
        ("_1b+".data).dropWhile wordChar) :=
  claim_c9_marker.2 'a' "_1b+".data (by decide)

/-- C9 counterexample: `$_foo` is not recognised as a macro invocation —
no marker is found and expansion leaves the text unchanged. -/
theorem claim_c9_counterexample :
    findMarker "$_foo".data = none ∧
    expand 5 env0 ctx0 [] "$_foo".data = ([], .ok ("$_foo".data, [])) := by
  refine ⟨by decide, by decide⟩

/-- C10 (confirmed): a file whose name carries both the `.copy` and the
`.in` markers is copied verbatim to the output — the input-only check of
`process_file` applies only when the copy marker is absent. -/
theorem claim_c10_copy_in (name : String) (hcopy : copyMatch name = true)
    (hin : inMatch name = true) : fileAction name = .copy := by
  simp [fileAction, hcopy]

/-- C10 witness: `x.copy.in` matches both markers and is copied. -/
theorem claim_c10_copy_in_witness :
    copyMatch "x.copy.in" = true ∧ inMatch "x.copy.in" = true ∧
    fileAction "x.copy.in" = .copy :=
  ⟨by decide, by decide, claim_c10_copy_in "x.copy.in" (by decide) (by decide)⟩

end Nancy
